import Mathlib

/-!
Verification of the Sia host database (`modules/hostdb/hostdb.go`) and the
host RPC connection dispatcher (`modules/host/network.go`).

The directory state (tree, `activeHosts`, `inactiveHosts`, `recentBlock`) is
embedded as a pure structure; the Go methods that mutate the receiver become
functions returning the new state, with fallible methods returning
`Except String`.  The write mutex `hdb.mu` (a non-reentrant `sync.RWMutex`)
is embedded where it matters: an exported method that locks an already-held
mutex blocks forever, which we model as the `deadlock` outcome.

The weighted-selection tree `hostNode` and the announcement extraction
function `findHostAnnouncements` belong to this repository but are not among
the given source files, so they are modelled from the spec (each such
definition is marked `Modelled from the spec:`).
-/

/-- Modelled from the spec: `modules.HostEntry` (not among the source files) is
an immutable snapshot of one peer whose network address (a host:port string)
is its identity key, carrying a non-negative scalar desirability weight
produced by a pluggable weight function.  We record the weight as a field. -/
structure HostEntry where
  ipAddress : String
  weight : Nat
deriving DecidableEq

/-- Modelled from the spec: the pluggable scalar weight function
`weight(entry) -> non-negative number`. -/
def entryWeight (e : HostEntry) : Nat := e.weight

/-- Modelled from the spec: the weighted-selection tree node (`hostNode`, not
among the source files).  Each node owns one entry and a subtree-weight
aggregate `weight`; an absent child (Go `nil` pointer) is the `nil`
constructor, and a directory with no tree (Go `hdb.hostTree == nil`) is the
`nil` tree. -/
inductive HostTree where
  | nil : HostTree
  | node (entry : HostEntry) (weight : Nat) (left right : HostTree) : HostTree
deriving DecidableEq

namespace HostTree

/-- The aggregate weight stored at the root (`hn.weight`); 0 for the absent tree. -/
def weight : HostTree → Nat
  | .nil => 0
  | .node _ w _ _ => w

/-- Whether the tree is the absent tree (Go pointer comparison with `nil`). -/
def isNil : HostTree → Bool
  | .nil => true
  | _ => false

/-- Number of nodes reachable from the root. -/
def count : HostTree → Nat
  | .nil => 0
  | .node _ _ l r => 1 + l.count + r.count

/-- Multiset of entries held by the nodes reachable from the root. -/
def treeEntries : HostTree → Multiset HostEntry
  | .nil => 0
  | .node en _ l r => en ::ₘ (treeEntries l + treeEntries r)

/-- Whether some reachable node holds an entry with the given address. -/
def containsAddr : HostTree → String → Bool
  | .nil, _ => false
  | .node en _ l r, a => en.ipAddress = a || containsAddr l a || containsAddr r a

/-- The own (non-aggregate) weight of the first reachable node holding the
given address; 0 when absent. -/
def ownWeightOf : HostTree → String → Nat
  | .nil, _ => 0
  | .node en _ l r, a =>
    if en.ipAddress = a then entryWeight en
    else if containsAddr l a then ownWeightOf l a
    else ownWeightOf r a

/-- The spec invariant I2 as a decidable predicate: every node stores as
`weight` its own entry weight plus the children aggregates. -/
def wfWeights : HostTree → Bool
  | .nil => true
  | .node en w l r =>
    (w == entryWeight en + l.weight + r.weight) && wfWeights l && wfWeights r

end HostTree

/-- Modelled from the spec: `createNode` builds a single-node tree whose own
weight is derived from the entry (the parent back-reference of the Go node is
representation-only and has no functional content). -/
def createNode (entry : HostEntry) : HostTree :=
  .node entry (entryWeight entry) .nil .nil

/-- Modelled from the spec: `hostNode.insert` descends to the first position
with a missing child (left slot first, else right slot, else recurse into the
left subtree), creates a new leaf there, and adds the new leaf weight to the
aggregate of every node on the path. -/
def HostTree.insertT : HostTree → HostEntry → HostTree
  | .nil, e => createNode e
  | .node en w l r, e =>
    if l.isNil then .node en (w + entryWeight e) (createNode e) r
    else if r.isNil then .node en (w + entryWeight e) l (createNode e)
    else .node en (w + entryWeight e) (l.insertT e) r

/-- Modelled from the spec: child promotion during removal — the promoted
subtree absorbs the other child at its first free slot, adding the grafted
subtree weight to every aggregate on the path. -/
def HostTree.graft : HostTree → HostTree → HostTree
  | .nil, t => t
  | .node en w l r, t =>
    if l.isNil then .node en (w + t.weight) t r
    else if r.isNil then .node en (w + t.weight) l t
    else .node en (w + t.weight) (l.graft t) r

/-- Modelled from the spec: `hostNode.remove` detaches the (unique, under the
directory invariants) node holding the given address, promotes its children
via `graft`, and subtracts the removed node own weight from every aggregate
on the path to the root.  The Go code reaches the node through the
`activeHosts` pointer and walks parent back-references; functionally this is
removal keyed by the node address. -/
def HostTree.removeAddr : HostTree → String → HostTree
  | .nil, _ => .nil
  | .node en w l r, a =>
    if en.ipAddress = a then l.graft r
    else if l.containsAddr a then .node en (w - l.ownWeightOf a) (l.removeAddr a) r
    else if r.containsAddr a then .node en (w - r.ownWeightOf a) l (r.removeAddr a)
    else .node en w l r

/-- Modelled from the spec: `hostNode.entryAtWeight` — if the query weight
falls in the node own slice, return its entry; otherwise subtract the slice
already accounted for and descend into the child whose range contains the
remainder. -/
def HostTree.entryAtWeight : HostTree → Nat → Except String HostEntry
  | .nil, _ => .error "no entry found at given weight"
  | .node en _ l r, w =>
    if w < entryWeight en then .ok en
    else
      let w1 := w - entryWeight en
      if w1 < l.weight then l.entryAtWeight w1
      else r.entryAtWeight (w1 - l.weight)

/-- Outcome of an operation whose Go implementation may block forever on a
lock: either it returns a value, or it deadlocks (a `sync.RWMutex` lock
acquired by a goroutine that already holds the write lock never succeeds). -/
inductive Outcome (α : Type) where
  | ret (a : α) : Outcome α
  | deadlock : Outcome α
deriving DecidableEq

/-- The block identifier `consensus.BlockID`, opaque here. -/
abbrev BlockID := Nat

/-- Modelled from the spec: a `consensus.Block` as seen through the consensus
boundary — the host announcements embedded in it (extracted by
`findHostAnnouncements`), an identifier, and whether extraction succeeds. -/
structure Block where
  id : BlockID
  valid : Bool
  announcements : List HostEntry
deriving DecidableEq

/-- Modelled from the spec: `findHostAnnouncements` (not among the source
files) extracts the host announcements embedded in a block; extraction of a
malformed announcement fails.  The initial state height parameter is kept for
signature fidelity. -/
def findHostAnnouncements (_initialStateHeight : Nat) (b : Block) :
    Except String (List HostEntry) :=
  if b.valid then .ok b.announcements else .error "malformed host announcement"

/-- The `HostDB` struct: tree root, active and inactive maps, and the
`recentBlock` identifier.  The Go maps are embedded as association lists with
unique keys; `activeHosts` maps an address to the entry held by the tree node
its Go value points at. -/
structure HostDB where
  recentBlock : BlockID
  hostTree : HostTree
  activeHosts : List (String × HostEntry)
  inactiveHosts : List (String × HostEntry)
deriving DecidableEq

/-- Key membership in an association list (`_, exists := m[addr]`). -/
def keyMem (l : List (String × HostEntry)) (a : String) : Bool :=
  l.any fun p => p.1 = a

/-- Key deletion in an association list (`delete(m, addr)` with unique keys). -/
def eraseKey : List (String × HostEntry) → String → List (String × HostEntry)
  | [], _ => []
  | p :: ps, a => if p.1 = a then ps else p :: eraseKey ps a

/-- `New(state)`: an empty directory whose `recentBlock` is the current block
of the consensus state (the non-nil-state check is outside the model: we take
the current block identifier directly). -/
def newHostDB (currentBlockID : BlockID) : HostDB :=
  { recentBlock := currentBlockID
    hostTree := .nil
    activeHosts := []
    inactiveHosts := [] }

namespace HostDB

/-- The lock-free `hdb.insert`: reject an address already active, otherwise
create the tree (when absent) or grow it, and index the new node under the
entry address. -/
def insert (hdb : HostDB) (entry : HostEntry) : Except String HostDB :=
  if keyMem hdb.activeHosts entry.ipAddress then
    .error "entry of given id already exists in host db"
  else
    match hdb.hostTree with
    | .nil =>
      .ok { hdb with
              hostTree := createNode entry
              activeHosts := (entry.ipAddress, entry) :: hdb.activeHosts }
    | t =>
      .ok { hdb with
              hostTree := t.insertT entry
              activeHosts := (entry.ipAddress, entry) :: hdb.activeHosts }

/-- The body of `hdb.Remove` once its lock is held: an active address is
dropped from `activeHosts` and its node removed from the tree; otherwise an
inactive address is dropped from `inactiveHosts`; otherwise not found. -/
def removeBody (hdb : HostDB) (addr : String) : Except String HostDB :=
  if keyMem hdb.activeHosts addr then
    .ok { hdb with
            activeHosts := eraseKey hdb.activeHosts addr
            hostTree := hdb.hostTree.removeAddr addr }
  else if keyMem hdb.inactiveHosts addr then
    .ok { hdb with inactiveHosts := eraseKey hdb.inactiveHosts addr }
  else
    .error "address not found in host database"

/-- The exported `hdb.Remove`: it starts with `hdb.mu.Lock()`.  `muHeld`
says whether the calling goroutine already holds the write lock; the mutex is
not reentrant, so in that case the acquisition blocks forever. -/
def Remove (muHeld : Bool) (hdb : HostDB) (addr : String) :
    Outcome (Except String HostDB) :=
  if muHeld then .deadlock else .ret (removeBody hdb addr)

/-- The exported `hdb.FlagHost`: its body is a single call to `hdb.Remove`. -/
def FlagHost (muHeld : Bool) (hdb : HostDB) (addr : String) :
    Outcome (Except String HostDB) :=
  Remove muHeld hdb addr

/-- The inner loop of `Update` over the announcements of one rewound block:
each entry is removed with the exported `hdb.Remove` while `Update` itself
holds the write lock. -/
def removeEntries : HostDB → List HostEntry → Outcome (Except String HostDB)
  | hdb, [] => .ret (.ok hdb)
  | hdb, entry :: rest =>
    match Remove true hdb entry.ipAddress with
    | .deadlock => .deadlock
    | .ret (.error m) => .ret (.error m)
    | .ret (.ok hdb1) => removeEntries hdb1 rest

/-- The inner loop of `Update` over the announcements of one applied block:
each entry is added with the lock-free `hdb.insert`. -/
def insertEntries : HostDB → List HostEntry → Except String HostDB
  | hdb, [] => .ok hdb
  | hdb, entry :: rest =>
    match hdb.insert entry with
    | .error m => .error m
    | .ok hdb1 => insertEntries hdb1 rest

/-- The rewind loop of `Update`: per block, extract announcements (an
extraction error aborts) and remove each. -/
def rewindBlocks : HostDB → Nat → List Block → Outcome (Except String HostDB)
  | hdb, _, [] => .ret (.ok hdb)
  | hdb, h, b :: bs =>
    match findHostAnnouncements h b with
    | .error m => .ret (.error m)
    | .ok entries =>
      match removeEntries hdb entries with
      | .deadlock => .deadlock
      | .ret (.error m) => .ret (.error m)
      | .ret (.ok hdb1) => rewindBlocks hdb1 h bs

/-- The apply loop of `Update`: per block, extract announcements and insert
each. -/
def applyBlocks : HostDB → Nat → List Block → Except String HostDB
  | hdb, _, [] => .ok hdb
  | hdb, h, b :: bs =>
    match findHostAnnouncements h b with
    | .error m => .error m
    | .ok entries =>
      match insertEntries hdb entries with
      | .error m => .error m
      | .ok hdb1 => applyBlocks hdb1 h bs

/-- The exported `hdb.Update`: acquires the write lock at entry (so the whole
body runs with `muHeld`), rewinds first, then applies. -/
def Update (hdb : HostDB) (initialStateHeight : Nat)
    (rewoundBlocks appliedBlocks : List Block) : Outcome (Except String HostDB) :=
  match rewindBlocks hdb initialStateHeight rewoundBlocks with
  | .deadlock => .deadlock
  | .ret (.error m) => .ret (.error m)
  | .ret (.ok hdb1) =>
    match applyBlocks hdb1 initialStateHeight appliedBlocks with
    | .error m => .ret (.error m)
    | .ok hdb2 => .ret (.ok hdb2)

end HostDB

/-- Result of one `RandomHost` call. `panicked` is the Go runtime panic raised
by `rand.Int` when its upper bound is not positive. -/
inductive RandomResult where
  | ok (e : HostEntry) : RandomResult
  | err (msg : String) : RandomResult
  | panicked : RandomResult
deriving DecidableEq

/-- The exported `hdb.RandomHost` (shared lock, no state change): fail when no
host is active; otherwise draw `randWeight` uniformly below the root
aggregate — `rand.Int` panics when that aggregate is zero — and look the
drawn weight up in the tree.  The draw is supplied from outside as `r` and
reduced modulo the root aggregate, matching a uniform draw in `[0, weight)`;
the unreachable failure of reading `crypto/rand` is not modelled. -/
def RandomHost (hdb : HostDB) (r : Nat) : RandomResult :=
  if hdb.activeHosts.length = 0 then .err "no hosts found"
  else if hdb.hostTree.weight = 0 then .panicked
  else
    match hdb.hostTree.entryAtWeight (r % hdb.hostTree.weight) with
    | .ok e => .ok e
    | .error m => .err m

/-- One external mutation request against the directory. -/
inductive Op where
  | ins (e : HostEntry) : Op
  | rm (a : String) : Op
deriving DecidableEq

/-- Run one operation the way the Go methods mutate the receiver: a failed
call leaves the directory as it was. -/
def applyOp (hdb : HostDB) : Op → HostDB
  | .ins e =>
    match hdb.insert e with
    | .ok hdb1 => hdb1
    | .error _ => hdb
  | .rm a =>
    match hdb.removeBody a with
    | .ok hdb1 => hdb1
    | .error _ => hdb

/-- Run a sequence of operations from a starting state. -/
def runOps (hdb : HostDB) : List Op → HostDB
  | [] => hdb
  | op :: rest => runOps (applyOp hdb op) rest

/-- A `types.Specifier`: a fixed 16-byte protocol identifier, byte-exact
matched. -/
structure Specifier where
  bytes : List Nat
deriving DecidableEq

/-- `rpcSettingsDeprecated = types.Specifier{'S','e','t','t','i','n','g','s'}`:
the composite literal zero-fills the remaining 8 bytes. -/
def rpcSettingsDeprecated : Specifier :=
  ⟨[83, 101, 116, 116, 105, 110, 103, 115, 0, 0, 0, 0, 0, 0, 0, 0]⟩

/-- Modelled from the spec: `modules.RPCDownload` (not among the source
files), one of the closed set of distinct known identifiers; rendered as the
versioned byte string "Download", 2, zero-filled. -/
def rpcDownload : Specifier :=
  ⟨[68, 111, 119, 110, 108, 111, 97, 100, 2, 0, 0, 0, 0, 0, 0, 0]⟩

/-- Modelled from the spec: `modules.RPCRenewContract`, "Renew", 2. -/
def rpcRenewContract : Specifier :=
  ⟨[82, 101, 110, 101, 119, 2, 0, 0, 0, 0, 0, 0, 0, 0, 0, 0]⟩

/-- Modelled from the spec: `modules.RPCFormContract`, "FormContract", 2. -/
def rpcFormContract : Specifier :=
  ⟨[70, 111, 114, 109, 67, 111, 110, 116, 114, 97, 99, 116, 2, 0, 0, 0]⟩

/-- Modelled from the spec: `modules.RPCReviseContract`, "Revise", 2. -/
def rpcReviseContract : Specifier :=
  ⟨[82, 101, 118, 105, 115, 101, 2, 0, 0, 0, 0, 0, 0, 0, 0, 0]⟩

/-- Modelled from the spec: `modules.RPCRecentRevision`, "RecentRevision", 2. -/
def rpcRecentRevision : Specifier :=
  ⟨[82, 101, 99, 101, 110, 116, 82, 101, 118, 105, 115, 105, 111, 110, 2, 0]⟩

/-- Modelled from the spec: `modules.RPCSettings`, "Settings", 2 — distinct
from the deprecated unversioned settings identifier. -/
def rpcSettings : Specifier :=
  ⟨[83, 101, 116, 116, 105, 110, 103, 115, 2, 0, 0, 0, 0, 0, 0, 0]⟩

/-- The per-kind call counters of the host (`h.atomic...Calls`). -/
structure NetMetrics where
  downloadCalls : Nat
  renewCalls : Nat
  formContractCalls : Nat
  reviseCalls : Nat
  recentRevisionCalls : Nat
  settingsCalls : Nat
  unrecognizedCalls : Nat
  erroredCalls : Nat
deriving DecidableEq

/-- What one `threadedHandleConn` call did: the counters afterwards, which
RPC handler (if any) the identifier was dispatched to, and whether the
connection ends up closed (the deferred close goroutine guarantees it on
every exit path). -/
structure ConnResult where
  metrics : NetMetrics
  dispatched : Option Specifier
  closed : Bool
deriving DecidableEq

/-- `threadedHandleConn`, from the thread-group registration onward.  `addOk`
is whether `h.tg.Add()` succeeds, `deadlineOk` whether `SetDeadline`
succeeds, `readId` the identifier read from the connection (`none` = read
error), and `handlerFails` tells, for each dispatched RPC kind, whether its
handler returns a non-nil error.  Each switch arm matches the source: known
identifiers bump their per-kind counter and run their handler, the deprecated
settings identifier is only logged, anything else bumps the unrecognized
counter; a handler error additionally bumps the errored counter. -/
def threadedHandleConn (m : NetMetrics) (addOk deadlineOk : Bool)
    (readId : Option Specifier) (handlerFails : Specifier → Bool) : ConnResult :=
  if !addOk then ⟨m, none, true⟩
  else if !deadlineOk then ⟨m, none, true⟩
  else
    match readId with
    | none =>
      ⟨{ m with unrecognizedCalls := m.unrecognizedCalls + 1 }, none, true⟩
    | some id =>
      let dispatchStep : NetMetrics × Option Specifier :=
        if id = rpcDownload then
          ({ m with downloadCalls := m.downloadCalls + 1 }, some id)
        else if id = rpcRenewContract then
          ({ m with renewCalls := m.renewCalls + 1 }, some id)
        else if id = rpcFormContract then
          ({ m with formContractCalls := m.formContractCalls + 1 }, some id)
        else if id = rpcReviseContract then
          ({ m with reviseCalls := m.reviseCalls + 1 }, some id)
        else if id = rpcRecentRevision then
          ({ m with recentRevisionCalls := m.recentRevisionCalls + 1 }, some id)
        else if id = rpcSettings then
          ({ m with settingsCalls := m.settingsCalls + 1 }, some id)
        else if id = rpcSettingsDeprecated then (m, none)
        else ({ m with unrecognizedCalls := m.unrecognizedCalls + 1 }, none)
      let errored : Bool :=
        match dispatchStep.2 with
        | some d => handlerFails d
        | none => false
      ⟨if errored then
          { dispatchStep.1 with erroredCalls := dispatchStep.1.erroredCalls + 1 }
        else dispatchStep.1,
       dispatchStep.2, true⟩

/-- The directory representation invariant (spec §3, I1–I4 as far as they are
functional): aggregates are consistent (I2), the tree entries are exactly the
entries indexed by `activeHosts`, each index key is the address of its entry
(I1), and no address is indexed twice. -/
def DirInv (hdb : HostDB) : Prop :=
  hdb.hostTree.wfWeights = true
  ∧ hdb.hostTree.treeEntries = (hdb.activeHosts.map Prod.snd : List HostEntry)
  ∧ (∀ p ∈ hdb.activeHosts, p.2.ipAddress = p.1)
  ∧ (hdb.activeHosts.map Prod.fst).Nodup

/-- The case analysis the spec gives for `Remove(address)`: an active address
is dropped from the index and its node leaves the tree; an inactive address
is dropped from `inactiveHosts` with everything else untouched; an unknown
address yields the not-found error and no change at all. -/
def RemoveSpec (hdb : HostDB) (a : String) : Prop :=
  if keyMem hdb.activeHosts a = true then
    ∃ hdb1, hdb.removeBody a = .ok hdb1
      ∧ keyMem hdb1.activeHosts a = false
      ∧ hdb1.activeHosts.length + 1 = hdb.activeHosts.length
      ∧ hdb1.hostTree.containsAddr a = false
      ∧ hdb1.hostTree.count + 1 = hdb.hostTree.count
      ∧ hdb1.inactiveHosts = hdb.inactiveHosts
      ∧ hdb1.recentBlock = hdb.recentBlock
  else if keyMem hdb.inactiveHosts a = true then
    ∃ hdb1, hdb.removeBody a = .ok hdb1
      ∧ hdb1.inactiveHosts = eraseKey hdb.inactiveHosts a
      ∧ hdb1.inactiveHosts.length + 1 = hdb.inactiveHosts.length
      ∧ hdb1.activeHosts = hdb.activeHosts
      ∧ hdb1.hostTree = hdb.hostTree
      ∧ hdb1.recentBlock = hdb.recentBlock
  else
    hdb.removeBody a = .error "address not found in host database"
      ∧ applyOp hdb (.rm a) = hdb

/-- The only error `entryAtWeight` can produce is the empty-subtree message. -/
theorem entryAtWeight_error_msg (t : HostTree) :
    ∀ w m, t.entryAtWeight w = .error m → m = "no entry found at given weight" := by
  induction t with
  | nil =>
    intro w m h
    exact (by simpa [HostTree.entryAtWeight] using h : _ = m).symm
  | node en wt l r ihl ihr =>
    intro w m h
    rw [HostTree.entryAtWeight] at h
    simp only at h
    split at h
    · cases h
    · split at h
      · exact ihl _ _ h
      · exact ihr _ _ h

/-- C3.  Inserting an entry whose address is already a key of `activeHosts`
returns the duplicate error, and the directory after the call is exactly the
directory before it. -/
theorem insert_duplicate_unchanged (hdb : HostDB) (e : HostEntry)
    (hdup : keyMem hdb.activeHosts e.ipAddress = true) :
    hdb.insert e = .error "entry of given id already exists in host db"
    ∧ applyOp hdb (.ins e) = hdb := by
  constructor
  · rw [HostDB.insert, if_pos hdup]
  · rw [applyOp, HostDB.insert, if_pos hdup]

/-- Witness for C3 at a concrete one-host directory. -/
theorem insert_duplicate_unchanged_witness :
    HostDB.insert
        { recentBlock := 0, hostTree := createNode ⟨"d:4", 4⟩,
          activeHosts := [("d:4", ⟨"d:4", 4⟩)], inactiveHosts := [] } ⟨"d:4", 9⟩
      = .error "entry of given id already exists in host db"
    ∧ applyOp
        { recentBlock := 0, hostTree := createNode ⟨"d:4", 4⟩,
          activeHosts := [("d:4", ⟨"d:4", 4⟩)], inactiveHosts := [] } (.ins ⟨"d:4", 9⟩)
      = { recentBlock := 0, hostTree := createNode ⟨"d:4", 4⟩,
          activeHosts := [("d:4", ⟨"d:4", 4⟩)], inactiveHosts := [] } :=
  insert_duplicate_unchanged
    { recentBlock := 0, hostTree := createNode ⟨"d:4", 4⟩,
      activeHosts := [("d:4", ⟨"d:4", 4⟩)], inactiveHosts := [] } ⟨"d:4", 9⟩ (by decide)

/-- C9.  `FlagHost` is extensionally `Remove`: same outcome (result and
post-state) for every lock situation, directory and address. -/
theorem flagHost_eq_remove (muHeld : Bool) (hdb : HostDB) (addr : String) :
    HostDB.FlagHost muHeld hdb addr = HostDB.Remove muHeld hdb addr := rfl

/-- C10.  With at least one active host but a zero root aggregate (as when
every active entry has zero own weight), `RandomHost` panics: the upper bound
handed to the random draw is zero. -/
theorem randomHost_zero_weight_panics (hdb : HostDB) (r : Nat)
    (hne : hdb.activeHosts ≠ []) (hw : hdb.hostTree.weight = 0) :
    RandomHost hdb r = .panicked := by
  rw [RandomHost, if_neg, if_pos hw]
  simpa [List.length_eq_zero] using hne

/-- Witness for C10: one active host of weight zero. -/
theorem randomHost_zero_weight_panics_witness :
    RandomHost
      { recentBlock := 0, hostTree := createNode ⟨"z:0", 0⟩,
        activeHosts := [("z:0", ⟨"z:0", 0⟩)], inactiveHosts := [] } 3
      = .panicked :=
  randomHost_zero_weight_panics
    { recentBlock := 0, hostTree := createNode ⟨"z:0", 0⟩,
      activeHosts := [("z:0", ⟨"z:0", 0⟩)], inactiveHosts := [] } 3
    (by decide) (by decide)

/-- C1.  The round trip the spec promises fails in the code: applying one
block that announces host a:1 succeeds, but the `Update` call that rewinds
exactly that block deadlocks — its inner `hdb.Remove` blocks forever on the
write lock `Update` already holds — instead of returning the directory to its
pre-application state. -/
theorem update_apply_then_rewind_deadlocks :
    HostDB.Update (newHostDB 0) 0 [] [⟨5, true, [⟨"a:1", 10⟩]⟩]
      = .ret (.ok { recentBlock := 0, hostTree := createNode ⟨"a:1", 10⟩,
                    activeHosts := [("a:1", ⟨"a:1", 10⟩)], inactiveHosts := [] })
    ∧ HostDB.Update
        { recentBlock := 0, hostTree := createNode ⟨"a:1", 10⟩,
          activeHosts := [("a:1", ⟨"a:1", 10⟩)], inactiveHosts := [] }
        0 [⟨5, true, [⟨"a:1", 10⟩]⟩] []
      = .deadlock :=
  ⟨rfl, rfl⟩

/-- C4.  `Update` does hold the write lock for its whole body — and precisely
because of that it never returns once a rewound block carries at least one
announcement: the removal is done through the exported `Remove`, whose lock
acquisition deadlocks against the lock `Update` itself holds. -/
theorem update_rewind_announcement_deadlocks (hdb : HostDB) (h : Nat)
    (b : Block) (e : HostEntry) (es : List HostEntry) (bs ap : List Block)
    (hf : findHostAnnouncements h b = .ok (e :: es)) :
    hdb.Update h (b :: bs) ap = .deadlock := by
  rw [HostDB.Update, HostDB.rewindBlocks, hf]
  rfl

/-- Witness for C4 at a concrete directory and block. -/
theorem update_rewind_announcement_deadlocks_witness :
    HostDB.Update (newHostDB 2) 0 [⟨7, true, [⟨"b:2", 3⟩]⟩] [] = .deadlock :=
  update_rewind_announcement_deadlocks (newHostDB 2) 0 ⟨7, true, [⟨"b:2", 3⟩]⟩
    ⟨"b:2", 3⟩ [] [] [] rfl

/-- C7.  `RandomHost` reports the empty-directory error exactly when
`activeHosts` is empty (the call reads under the shared lock and never
mutates the directory); with at least one active host that error is
impossible — any non-`ok` outcome is the zero-weight panic or a different
message. -/
theorem randomHost_error_iff_empty (hdb : HostDB) (r : Nat) :
    RandomHost hdb r = .err "no hosts found" ↔ hdb.activeHosts = [] := by
  constructor
  · intro h
    by_contra hne
    have hlen : hdb.activeHosts.length ≠ 0 := by
      simpa [List.length_eq_zero] using hne
    rw [RandomHost, if_neg hlen] at h
    split at h
    · cases h
    · split at h
      · cases h
      · rename_i m hm
        have hmsg := entryAtWeight_error_msg hdb.hostTree _ _ hm
        subst hmsg
        have hstr : ("no entry found at given weight" : String) = "no hosts found" := by
          injection h
        exact absurd hstr (by decide)
  · intro h
    rw [RandomHost]
    simp [h]

/-- Results of successful `hdb.insert` keep `recentBlock`. -/
theorem insert_recentBlock (hdb : HostDB) (e : HostEntry) (hdb1 : HostDB)
    (h : hdb.insert e = .ok hdb1) : hdb1.recentBlock = hdb.recentBlock := by
  rw [HostDB.insert] at h
  split at h
  · cases h
  · split at h <;> (cases h; rfl)

/-- Results of successful `removeBody` keep `recentBlock`. -/
theorem removeBody_recentBlock (hdb : HostDB) (a : String) (hdb1 : HostDB)
    (h : hdb.removeBody a = .ok hdb1) : hdb1.recentBlock = hdb.recentBlock := by
  rw [HostDB.removeBody] at h
  split at h
  · cases h; rfl
  · split at h
    · cases h; rfl
    · cases h

/-- `removeEntries` runs with the write lock held, so it only returns a state
on the empty announcement list — and then it is the input state. -/
theorem removeEntries_ok (hdb : HostDB) (es : List HostEntry) (hdb1 : HostDB)
    (h : HostDB.removeEntries hdb es = .ret (.ok hdb1)) : hdb1 = hdb := by
  cases es with
  | nil =>
    rw [HostDB.removeEntries] at h
    cases h
    rfl
  | cons e rest =>
    rw [HostDB.removeEntries] at h
    cases h

/-- The rewind loop keeps `recentBlock` on every returned state. -/
theorem rewindBlocks_recentBlock (bs : List Block) :
    ∀ hdb h hdb1, HostDB.rewindBlocks hdb h bs = .ret (.ok hdb1) →
      hdb1.recentBlock = hdb.recentBlock := by
  induction bs with
  | nil =>
    intro hdb h hdb1 hh
    rw [HostDB.rewindBlocks] at hh
    cases hh
    rfl
  | cons b rest ih =>
    intro hdb h hdb1 hh
    rw [HostDB.rewindBlocks] at hh
    split at hh
    · cases hh
    · split at hh
      · cases hh
      · cases hh
      · rename_i hdb2 hrm
        have hq := removeEntries_ok _ _ _ hrm
        subst hq
        exact ih _ _ _ hh

/-- The per-block insertion loop keeps `recentBlock`. -/
theorem insertEntries_recentBlock (es : List HostEntry) :
    ∀ hdb hdb1, HostDB.insertEntries hdb es = .ok hdb1 →
      hdb1.recentBlock = hdb.recentBlock := by
  induction es with
  | nil =>
    intro hdb hdb1 hh
    rw [HostDB.insertEntries] at hh
    cases hh
    rfl
  | cons e rest ih =>
    intro hdb hdb1 hh
    rw [HostDB.insertEntries] at hh
    split at hh
    · cases hh
    · rename_i hdb2 hins
      rw [ih _ _ hh, insert_recentBlock _ _ _ hins]

/-- The apply loop keeps `recentBlock`. -/
theorem applyBlocks_recentBlock (bs : List Block) :
    ∀ hdb h hdb1, HostDB.applyBlocks hdb h bs = .ok hdb1 →
      hdb1.recentBlock = hdb.recentBlock := by
  induction bs with
  | nil =>
    intro hdb h hdb1 hh
    rw [HostDB.applyBlocks] at hh
    cases hh
    rfl
  | cons b rest ih =>
    intro hdb h hdb1 hh
    rw [HostDB.applyBlocks] at hh
    split at hh
    · cases hh
    · split at hh
      · cases hh
      · rename_i hdb2 hins
        rw [ih _ _ _ hh, insertEntries_recentBlock _ _ _ hins]

/-- C5 (amended).  `recentBlock` is fixed at construction and never written
again: a successful `Update` — like every other operation — returns a
directory with the same `recentBlock` it started with. -/
theorem recentBlock_never_changes (hdb : HostDB) :
    (∀ e hdb1, hdb.insert e = .ok hdb1 → hdb1.recentBlock = hdb.recentBlock)
    ∧ (∀ a hdb1, hdb.removeBody a = .ok hdb1 → hdb1.recentBlock = hdb.recentBlock)
    ∧ (∀ h rw ap hdb1, hdb.Update h rw ap = .ret (.ok hdb1) →
        hdb1.recentBlock = hdb.recentBlock) := by
  refine ⟨fun e hdb1 h => insert_recentBlock hdb e hdb1 h,
          fun a hdb1 h => removeBody_recentBlock hdb a hdb1 h,
          fun h rw ap hdb1 hh => ?_⟩
  rw [HostDB.Update] at hh
  split at hh
  · cases hh
  · cases hh
  · rename_i hdb2 hrew
    split at hh
    · cases hh
    · rename_i hdb3 happ
      cases hh
      rw [applyBlocks_recentBlock _ _ _ _ happ, rewindBlocks_recentBlock _ _ _ _ hrew]

/-- Witness for C5 (amended) at a concrete successful `insert`. -/
theorem recentBlock_never_changes_witness :
    HostDB.recentBlock
        { recentBlock := 3, hostTree := createNode ⟨"w:9", 1⟩,
          activeHosts := [("w:9", ⟨"w:9", 1⟩)], inactiveHosts := [] }
      = (newHostDB 3).recentBlock :=
  (recentBlock_never_changes (newHostDB 3)).1 ⟨"w:9", 1⟩
    { recentBlock := 3, hostTree := createNode ⟨"w:9", 1⟩,
      activeHosts := [("w:9", ⟨"w:9", 1⟩)], inactiveHosts := [] } rfl

/-- C5 counterexample.  A successful `Update` that applies the block with
identifier 9 leaves `recentBlock` at its construction value 1: the field is
not advanced to identify the block just synchronized. -/
theorem recentBlock_not_advanced_cex :
    HostDB.Update (newHostDB 1) 0 [] [⟨9, true, [⟨"c:3", 7⟩]⟩]
      = .ret (.ok { recentBlock := 1, hostTree := createNode ⟨"c:3", 7⟩,
                    activeHosts := [("c:3", ⟨"c:3", 7⟩)], inactiveHosts := [] })
    ∧ (1 : BlockID) ≠ 9 :=
  ⟨rfl, by decide⟩

/-- C8.  A successfully read identifier matching no known RPC specifier and
not the deprecated settings specifier bumps exactly the unrecognized-call
counter, dispatches no handler, and the connection is closed; the deprecated
settings specifier dispatches no handler and bumps no counter at all. -/
theorem handleConn_unrecognized (m : NetMetrics) (id : Specifier)
    (hf : Specifier → Bool)
    (h1 : id ≠ rpcDownload) (h2 : id ≠ rpcRenewContract)
    (h3 : id ≠ rpcFormContract) (h4 : id ≠ rpcReviseContract)
    (h5 : id ≠ rpcRecentRevision) (h6 : id ≠ rpcSettings)
    (h7 : id ≠ rpcSettingsDeprecated) :
    threadedHandleConn m true true (some id) hf
      = ⟨{ m with unrecognizedCalls := m.unrecognizedCalls + 1 }, none, true⟩
    ∧ threadedHandleConn m true true (some rpcSettingsDeprecated) hf
      = ⟨m, none, true⟩ := by
  constructor
  · rw [threadedHandleConn]
    simp [h1, h2, h3, h4, h5, h6, h7]
  · rfl

/-- Witness for C8 at an arbitrary unknown 16-byte identifier and zeroed
counters. -/
theorem handleConn_unrecognized_witness :
    threadedHandleConn ⟨0, 0, 0, 0, 0, 0, 0, 0⟩ true true
        (some ⟨[1, 2, 3, 4, 5, 6, 7, 8, 9, 10, 11, 12, 13, 14, 15, 16]⟩)
        (fun _ => false)
      = ⟨⟨0, 0, 0, 0, 0, 0, 1, 0⟩, none, true⟩
    ∧ threadedHandleConn ⟨0, 0, 0, 0, 0, 0, 0, 0⟩ true true
        (some rpcSettingsDeprecated) (fun _ => false)
      = ⟨⟨0, 0, 0, 0, 0, 0, 0, 0⟩, none, true⟩ :=
  handleConn_unrecognized ⟨0, 0, 0, 0, 0, 0, 0, 0⟩
    ⟨[1, 2, 3, 4, 5, 6, 7, 8, 9, 10, 11, 12, 13, 14, 15, 16]⟩ (fun _ => false)
    (by decide) (by decide) (by decide) (by decide) (by decide) (by decide)
    (by decide)

namespace HostTree

/-- Aggregate weight of the absent tree. -/
theorem weight_nil : (nil : HostTree).weight = 0 := rfl

/-- Aggregate weight stored at a node. -/
theorem weight_node (en : HostEntry) (w : Nat) (l r : HostTree) :
    (node en w l r).weight = w := rfl

/-- A tree whose `isNil` test succeeds is the absent tree. -/
theorem eq_nil_of_isNil {t : HostTree} (h : t.isNil = true) : t = nil := by
  cases t with
  | nil => rfl
  | node en w l r => simp [isNil] at h

/-- Unfolding of the weight invariant at a node. -/
theorem wfWeights_node {en : HostEntry} {w : Nat} {l r : HostTree} :
    (node en w l r).wfWeights = true
      ↔ w = entryWeight en + l.weight + r.weight
        ∧ l.wfWeights = true ∧ r.wfWeights = true := by
  simp [wfWeights, Bool.and_assoc]

/-- `insert` adds exactly the new entry weight to the root aggregate. -/
theorem weight_insertT (t : HostTree) (e : HostEntry) :
    (t.insertT e).weight = t.weight + entryWeight e := by
  cases t with
  | nil => simp [insertT, createNode, weight]
  | node en w l r =>
    rw [insertT]
    split_ifs <;> rfl

/-- `insert` adds exactly the new entry to the reachable entries. -/
theorem treeEntries_insertT (t : HostTree) (e : HostEntry) :
    (t.insertT e).treeEntries = e ::ₘ t.treeEntries := by
  induction t with
  | nil => simp [insertT, createNode, treeEntries]
  | node en w l r ihl ihr =>
    rw [insertT]
    split_ifs with h1 h2
    · rw [eq_nil_of_isNil h1]
      simp [treeEntries, createNode, Multiset.cons_swap]
    · rw [eq_nil_of_isNil h2]
      simp only [treeEntries, createNode, add_zero, zero_add]
      rw [Multiset.add_cons, add_zero, Multiset.cons_swap]
    · simp [treeEntries, ihl, Multiset.cons_add, Multiset.cons_swap]

/-- `insert` preserves the weight invariant. -/
theorem wfWeights_insertT (t : HostTree) (e : HostEntry) (h : t.wfWeights = true) :
    (t.insertT e).wfWeights = true := by
  induction t with
  | nil => simp [insertT, createNode, wfWeights, weight]
  | node en w l r ihl ihr =>
    rw [wfWeights_node] at h
    obtain ⟨hw, hl, hr⟩ := h
    rw [insertT]
    split_ifs with h1 h2
    · rw [eq_nil_of_isNil h1] at hw
      rw [wfWeights_node]
      refine ⟨?_, by simp [createNode, wfWeights, weight], hr⟩
      simp [createNode, weight] at hw ⊢
      omega
    · rw [eq_nil_of_isNil h2] at hw
      rw [wfWeights_node]
      refine ⟨?_, hl, by simp [createNode, wfWeights, weight]⟩
      simp [createNode, weight] at hw ⊢
      omega
    · rw [wfWeights_node]
      refine ⟨?_, ihl hl, hr⟩
      rw [weight_insertT]
      omega

/-- Node count is the cardinality of the reachable entries. -/
theorem count_eq_card (t : HostTree) :
    t.count = Multiset.card t.treeEntries := by
  induction t with
  | nil => simp [count, treeEntries]
  | node en w l r ihl ihr => simp [count, treeEntries, ihl, ihr]; omega

/-- Under the weight invariant the root aggregate is the total own weight of
the reachable entries. -/
theorem weight_eq_sum (t : HostTree) (h : t.wfWeights = true) :
    t.weight = (t.treeEntries.map entryWeight).sum := by
  induction t with
  | nil => simp [weight, treeEntries]
  | node en w l r ihl ihr =>
    rw [wfWeights_node] at h
    obtain ⟨hw, hl, hr⟩ := h
    rw [weight_node, treeEntries]
    simp only [Multiset.map_cons, Multiset.sum_cons, Multiset.map_add, Multiset.sum_add]
    rw [ihl hl, ihr hr] at hw
    omega

/-- Address membership read off the reachable entries. -/
theorem containsAddr_iff (t : HostTree) (a : String) :
    t.containsAddr a = true ↔ ∃ e ∈ t.treeEntries, e.ipAddress = a := by
  induction t with
  | nil => simp [containsAddr, treeEntries]
  | node en w l r ihl ihr =>
    simp only [containsAddr, Bool.or_eq_true, decide_eq_true_eq, ihl, ihr,
      treeEntries, Multiset.mem_cons, Multiset.mem_add]
    constructor
    · rintro ((h | ⟨e, he, ha⟩) | ⟨e, he, ha⟩)
      · exact ⟨en, Or.inl rfl, h⟩
      · exact ⟨e, Or.inr (Or.inl he), ha⟩
      · exact ⟨e, Or.inr (Or.inr he), ha⟩
    · rintro ⟨e, he | he | he, ha⟩
      · subst he
        exact Or.inl (Or.inl ha)
      · exact Or.inl (Or.inr ⟨e, he, ha⟩)
      · exact Or.inr ⟨e, he, ha⟩

/-- Any reachable entry weighs no more than the root aggregate. -/
theorem entryWeight_le_weight (t : HostTree) (e : HostEntry)
    (hwf : t.wfWeights = true) (he : e ∈ t.treeEntries) :
    entryWeight e ≤ t.weight := by
  induction t with
  | nil => simp [treeEntries] at he
  | node en w l r ihl ihr =>
    rw [wfWeights_node] at hwf
    obtain ⟨hw, hl, hr⟩ := hwf
    rw [weight_node]
    simp only [treeEntries, Multiset.mem_cons, Multiset.mem_add] at he
    rcases he with rfl | he | he
    · omega
    · have := ihl hl he
      omega
    · have := ihr hr he
      omega

/-- Grafting concatenates the reachable entries. -/
theorem treeEntries_graft (l r : HostTree) :
    (l.graft r).treeEntries = l.treeEntries + r.treeEntries := by
  induction l with
  | nil => simp [graft, treeEntries]
  | node en w lc rc ihl ihr =>
    rw [graft]
    split_ifs with h1 h2
    · rw [eq_nil_of_isNil h1]
      simp [treeEntries, Multiset.cons_add, Multiset.add_cons]
      rw [add_comm]
    · rw [eq_nil_of_isNil h2]
      simp [treeEntries, Multiset.cons_add, Multiset.add_cons]
    · simp [treeEntries, ihl, Multiset.cons_add]
      rw [add_right_comm]

/-- Grafting adds the aggregates. -/
theorem weight_graft (l r : HostTree) :
    (l.graft r).weight = l.weight + r.weight := by
  cases l with
  | nil => simp [graft, weight]
  | node en w lc rc =>
    rw [graft]
    split_ifs <;> rfl

/-- Grafting preserves the weight invariant. -/
theorem wfWeights_graft (l r : HostTree)
    (hl : l.wfWeights = true) (hr : r.wfWeights = true) :
    (l.graft r).wfWeights = true := by
  induction l with
  | nil => simpa [graft] using hr
  | node en w lc rc ihl ihr =>
    rw [wfWeights_node] at hl
    obtain ⟨hw, hlc, hrc⟩ := hl
    rw [graft]
    split_ifs with h1 h2
    · rw [eq_nil_of_isNil h1] at hw
      rw [wfWeights_node]
      refine ⟨?_, hr, hrc⟩
      simp [weight] at hw ⊢
      omega
    · rw [eq_nil_of_isNil h2] at hw
      rw [wfWeights_node]
      refine ⟨?_, hlc, hr⟩
      simp [weight] at hw ⊢
      omega
    · rw [wfWeights_node]
      refine ⟨?_, ihl hlc, hrc⟩
      rw [weight_graft]
      omega

end HostTree

namespace HostTree

/-- Splitting the address-uniqueness of a node between its parts. -/
theorem nodup_parts {en : HostEntry} {w : Nat} {l r : HostTree}
    (h : ((node en w l r).treeEntries.map HostEntry.ipAddress).Nodup) :
    (l.treeEntries.map HostEntry.ipAddress).Nodup
    ∧ (r.treeEntries.map HostEntry.ipAddress).Nodup := by
  simp only [treeEntries, Multiset.map_cons, Multiset.map_add, Multiset.nodup_cons,
    Multiset.nodup_add] at h
  tauto

/-- What removal does to a tree satisfying the invariants and containing the
address: some reachable entry carries the address, exactly that entry leaves
the multiset of reachable entries, the weight invariant survives, the
recorded own weight is that entry weight, and the root aggregate drops by it. -/
theorem removeAddr_spec (t : HostTree) (a : String) :
    t.wfWeights = true →
    (t.treeEntries.map HostEntry.ipAddress).Nodup →
    t.containsAddr a = true →
    ∃ e, e ∈ t.treeEntries ∧ e.ipAddress = a
      ∧ (t.removeAddr a).treeEntries = t.treeEntries.erase e
      ∧ (t.removeAddr a).wfWeights = true
      ∧ t.ownWeightOf a = entryWeight e
      ∧ (t.removeAddr a).weight = t.weight - entryWeight e := by
  induction t with
  | nil =>
    intro _ _ hc
    simp [containsAddr] at hc
  | node en w l r ihl ihr =>
    intro hwf hnd hc
    rw [wfWeights_node] at hwf
    obtain ⟨hw, hl, hr⟩ := hwf
    obtain ⟨hndl, hndr⟩ := nodup_parts hnd
    by_cases h1 : en.ipAddress = a
    · refine ⟨en, by simp [treeEntries], h1, ?_, ?_, ?_, ?_⟩
      · rw [removeAddr, if_pos h1, treeEntries_graft, treeEntries,
          Multiset.erase_cons_head]
      · rw [removeAddr, if_pos h1]
        exact wfWeights_graft l r hl hr
      · rw [ownWeightOf, if_pos h1]
      · rw [removeAddr, if_pos h1, weight_graft, weight_node]
        omega
    · by_cases h2 : l.containsAddr a = true
      · obtain ⟨e, hel, hea, hent, hwfr, hown, hwt⟩ := ihl hl hndl h2
        have hne : en ≠ e := by
          intro hq
          rw [hq] at h1
          exact h1 hea
        have hle := entryWeight_le_weight l e hl hel
        refine ⟨e, ?_, hea, ?_, ?_, ?_, ?_⟩
        · simp only [treeEntries, Multiset.mem_cons, Multiset.mem_add]
          exact Or.inr (Or.inl hel)
        · rw [removeAddr, if_neg h1, if_pos h2, treeEntries, treeEntries, hent,
            Multiset.erase_cons_tail _ hne, Multiset.erase_add_left_pos _ hel]
        · rw [removeAddr, if_neg h1, if_pos h2, wfWeights_node]
          refine ⟨?_, hwfr, hr⟩
          rw [hown, hwt]
          omega
        · rw [ownWeightOf, if_neg h1, if_pos h2]
          exact hown
        · rw [removeAddr, if_neg h1, if_pos h2, weight_node, weight_node, hown]
      · by_cases h3 : r.containsAddr a = true
        · obtain ⟨e, her, hea, hent, hwfr, hown, hwt⟩ := ihr hr hndr h3
          have hne : en ≠ e := by
            intro hq
            rw [hq] at h1
            exact h1 hea
          have hle := entryWeight_le_weight r e hr her
          refine ⟨e, ?_, hea, ?_, ?_, ?_, ?_⟩
          · simp only [treeEntries, Multiset.mem_cons, Multiset.mem_add]
            exact Or.inr (Or.inr her)
          · rw [removeAddr, if_neg h1, if_neg h2, if_pos h3, treeEntries, treeEntries,
              hent, Multiset.erase_cons_tail _ hne, Multiset.erase_add_right_pos _ her]
          · rw [removeAddr, if_neg h1, if_neg h2, if_pos h3, wfWeights_node]
            refine ⟨?_, hl, hwfr⟩
            rw [hown, hwt]
            omega
          · rw [ownWeightOf, if_neg h1, if_neg h2]
            exact hown
          · rw [removeAddr, if_neg h1, if_neg h2, if_pos h3, weight_node, weight_node,
              hown]
        · exfalso
          rw [containsAddr] at hc
          simp only [Bool.or_eq_true, decide_eq_true_eq] at hc
          rcases hc with (hc | hc) | hc
          · exact h1 hc
          · exact h2 hc
          · exact h3 hc

end HostTree

/-- `keyMem` is membership among the keys. -/
theorem keyMem_true_iff (l : List (String × HostEntry)) (a : String) :
    keyMem l a = true ↔ a ∈ l.map Prod.fst := by
  simp only [keyMem, List.any_eq_true, decide_eq_true_eq, List.mem_map]

/-- Failing `keyMem` is absence among the keys. -/
theorem keyMem_false_iff (l : List (String × HostEntry)) (a : String) :
    keyMem l a = false ↔ a ∉ l.map Prod.fst := by
  rw [← keyMem_true_iff]
  cases h : keyMem l a <;> simp [h]

/-- Deleting a present key shortens the list by exactly one. -/
theorem eraseKey_length (l : List (String × HostEntry)) (a : String)
    (h : keyMem l a = true) : (eraseKey l a).length + 1 = l.length := by
  induction l with
  | nil => simp [keyMem] at h
  | cons p ps ih =>
    rw [eraseKey]
    by_cases hp : p.1 = a
    · rw [if_pos hp]
      simp
    · rw [if_neg hp]
      simp only [keyMem, List.any_cons, Bool.or_eq_true, decide_eq_true_eq] at h
      rcases h with h | h
      · exact absurd h hp
      · simpa using ih h

/-- Every pair surviving key deletion was in the original list. -/
theorem eraseKey_subset (l : List (String × HostEntry)) (a : String) :
    ∀ p ∈ eraseKey l a, p ∈ l := by
  induction l with
  | nil => simp [eraseKey]
  | cons q qs ih =>
    rw [eraseKey]
    by_cases hq : q.1 = a
    · rw [if_pos hq]
      intro p hp
      exact List.mem_cons_of_mem q hp
    · rw [if_neg hq]
      intro p hp
      rcases List.mem_cons.mp hp with rfl | hp
      · exact List.mem_cons_self p qs
      · exact List.mem_cons_of_mem q (ih p hp)

/-- The keys after deletion form a sublist of the original keys. -/
theorem eraseKey_fst_sublist (l : List (String × HostEntry)) (a : String) :
    List.Sublist ((eraseKey l a).map Prod.fst) (l.map Prod.fst) := by
  induction l with
  | nil => simp [eraseKey]
  | cons q qs ih =>
    rw [eraseKey]
    by_cases hq : q.1 = a
    · rw [if_pos hq]
      simp only [List.map_cons]
      exact List.sublist_cons_self q.1 (qs.map Prod.fst)
    · rw [if_neg hq]
      simp only [List.map_cons]
      exact List.Sublist.cons₂ q.1 ih

/-- With unique keys, a deleted key is gone. -/
theorem keyMem_eraseKey_self (l : List (String × HostEntry)) (a : String)
    (hnd : (l.map Prod.fst).Nodup) : keyMem (eraseKey l a) a = false := by
  induction l with
  | nil => rfl
  | cons p ps ih =>
    simp only [List.map_cons, List.nodup_cons] at hnd
    rw [eraseKey]
    by_cases hp : p.1 = a
    · rw [if_pos hp]
      rw [keyMem_false_iff]
      rw [hp] at hnd
      exact hnd.1
    · rw [if_neg hp]
      have htail := ih hnd.2
      rw [keyMem_false_iff] at htail ⊢
      simp only [List.map_cons, List.mem_cons]
      push_neg
      exact ⟨fun hq => hp hq.symm, htail⟩

/-- With the key discipline of `activeHosts`, deleting key `a` deletes from
the value multiset exactly the entry indexed at `a`. -/
theorem eraseKey_map_snd (l : List (String × HostEntry)) (a : String)
    (hkeys : ∀ p ∈ l, p.2.ipAddress = p.1) (hnd : (l.map Prod.fst).Nodup) :
    ∀ q ∈ l, q.1 = a →
      ((eraseKey l a).map Prod.snd : Multiset HostEntry)
        = (l.map Prod.snd : Multiset HostEntry).erase q.2 := by
  induction l with
  | nil => simp
  | cons p ps ih =>
    intro q hq hqa
    simp only [List.map_cons, List.nodup_cons] at hnd
    rw [eraseKey]
    by_cases hp : p.1 = a
    · rw [if_pos hp]
      have hqp : q = p := by
        rcases List.mem_cons.mp hq with rfl | hq1
        · rfl
        · exfalso
          apply hnd.1
          rw [hp, ← hqa]
          exact List.mem_map_of_mem Prod.fst hq1
      subst hqp
      rw [List.map_cons, ← Multiset.cons_coe, Multiset.erase_cons_head]
    · rw [if_neg hp]
      have hq1 : q ∈ ps := by
        rcases List.mem_cons.mp hq with rfl | hq1
        · exact absurd hqa hp
        · exact hq1
      have hps : p.2 ≠ q.2 := by
        intro hq2
        apply hp
        rw [← hkeys p (List.mem_cons_self p ps), hq2,
          hkeys q (List.mem_cons_of_mem p hq1), hqa]
      rw [List.map_cons, List.map_cons, ← Multiset.cons_coe, ← Multiset.cons_coe,
        Multiset.erase_cons_tail _ hps,
        ih (fun p1 hp1 => hkeys p1 (List.mem_cons_of_mem p hp1)) hnd.2 q hq1 hqa]

/-- Two reachable entries with one address are one entry, when addresses are
unique. -/
theorem mem_ip_unique {s : Multiset HostEntry}
    (hnd : (s.map HostEntry.ipAddress).Nodup) {e1 e2 : HostEntry}
    (h1 : e1 ∈ s) (h2 : e2 ∈ s) (hip : e1.ipAddress = e2.ipAddress) : e1 = e2 := by
  by_contra hne
  have h2e : e2 ∈ s.erase e1 := (Multiset.mem_erase_of_ne fun hq => hne hq.symm).mpr h2
  have hs : s.map HostEntry.ipAddress
      = e1.ipAddress ::ₘ (s.erase e1).map HostEntry.ipAddress := by
    rw [← Multiset.map_cons, Multiset.cons_erase h1]
  rw [hs, Multiset.nodup_cons] at hnd
  apply hnd.1
  rw [hip]
  exact Multiset.mem_map_of_mem _ h2e

/-- Under the invariant, the tree addresses are exactly the `activeHosts`
keys. -/
theorem treeAddrs_eq (hdb : HostDB) (hent : hdb.hostTree.treeEntries
      = (hdb.activeHosts.map Prod.snd : List HostEntry))
    (hkeys : ∀ p ∈ hdb.activeHosts, p.2.ipAddress = p.1) :
    hdb.hostTree.treeEntries.map HostEntry.ipAddress
      = ((hdb.activeHosts.map Prod.fst : List String) : Multiset String) := by
  rw [hent, Multiset.map_coe, List.map_map]
  exact congrArg _ (List.map_congr_left hkeys)

/-- A fresh directory satisfies the invariant. -/
theorem DirInv_newHostDB (i : BlockID) : DirInv (newHostDB i) :=
  ⟨rfl, rfl, by simp [newHostDB], by simp [newHostDB]⟩

/-- A non-duplicate insertion preserves the invariant. -/
theorem DirInv_insert_cons (hdb : HostDB) (e : HostEntry)
    (hkm : keyMem hdb.activeHosts e.ipAddress = false) (hInv : DirInv hdb) :
    DirInv { hdb with hostTree := hdb.hostTree.insertT e,
                      activeHosts := (e.ipAddress, e) :: hdb.activeHosts } := by
  obtain ⟨hwf, hent, hkeys, hnd⟩ := hInv
  refine ⟨HostTree.wfWeights_insertT _ _ hwf, ?_, ?_, ?_⟩
  · show (hdb.hostTree.insertT e).treeEntries = _
    rw [HostTree.treeEntries_insertT, hent, List.map_cons, Multiset.cons_coe]
  · intro p hp
    rcases List.mem_cons.mp hp with rfl | hp1
    · rfl
    · exact hkeys p hp1
  · show (((e.ipAddress, e) :: hdb.activeHosts).map Prod.fst).Nodup
    rw [List.map_cons]
    exact List.nodup_cons.mpr ⟨(keyMem_false_iff _ _).mp hkm, hnd⟩

/-- Every successful `insert` preserves the invariant. -/
theorem DirInv_insert_ok (hdb : HostDB) (e : HostEntry) (hdb1 : HostDB)
    (hInv : DirInv hdb) (h : hdb.insert e = .ok hdb1) : DirInv hdb1 := by
  rw [HostDB.insert] at h
  split at h
  · cases h
  · rename_i hkm
    have hkm1 : keyMem hdb.activeHosts e.ipAddress = false := by
      cases hq : keyMem hdb.activeHosts e.ipAddress
      · rfl
      · exact absurd hq hkm
    cases hq : hdb.hostTree with
    | nil =>
      rw [hq] at h
      cases h
      have hres := DirInv_insert_cons hdb e hkm1 hInv
      rw [hq] at hres
      exact hres
    | node en w l r =>
      rw [hq] at h
      cases h
      have hres := DirInv_insert_cons hdb e hkm1 hInv
      rw [hq] at hres
      exact hres

/-- Every successful `removeBody` preserves the invariant. -/
theorem DirInv_removeBody_ok (hdb : HostDB) (a : String) (hdb1 : HostDB)
    (hInv : DirInv hdb) (h : hdb.removeBody a = .ok hdb1) : DirInv hdb1 := by
  obtain ⟨hwf, hent, hkeys, hnd⟩ := hInv
  rw [HostDB.removeBody] at h
  split at h
  · rename_i hkm
    cases h
    have haddr := treeAddrs_eq hdb hent hkeys
    have hndT : (hdb.hostTree.treeEntries.map HostEntry.ipAddress).Nodup := by
      rw [haddr]
      exact Multiset.coe_nodup.mpr hnd
    have hqex : ∃ q ∈ hdb.activeHosts, q.1 = a := by
      have hmem := (keyMem_true_iff _ _).mp hkm
      simpa [List.mem_map] using hmem
    obtain ⟨q, hql, hqa⟩ := hqex
    have hqent : q.2 ∈ hdb.hostTree.treeEntries := by
      rw [hent]
      exact Multiset.mem_coe.mpr (List.mem_map_of_mem Prod.snd hql)
    have hc : hdb.hostTree.containsAddr a = true := by
      rw [HostTree.containsAddr_iff]
      exact ⟨q.2, hqent, by rw [hkeys q hql, hqa]⟩
    obtain ⟨e, heent, hea, hrment, hrwf, hown, hwt⟩ :=
      HostTree.removeAddr_spec hdb.hostTree a hwf hndT hc
    have heq : e = q.2 :=
      mem_ip_unique hndT heent hqent (by rw [hea, hkeys q hql, hqa])
    refine ⟨hrwf, ?_, ?_, ?_⟩
    · show (hdb.hostTree.removeAddr a).treeEntries = _
      rw [hrment, heq, hent]
      exact (eraseKey_map_snd hdb.activeHosts a hkeys hnd q hql hqa).symm
    · intro p hp
      exact hkeys p (eraseKey_subset _ _ p hp)
    · exact hnd.sublist (eraseKey_fst_sublist _ _)
  · split at h
    · cases h
      exact ⟨hwf, hent, hkeys, hnd⟩
    · cases h

/-- One directory operation preserves the invariant. -/
theorem DirInv_applyOp (hdb : HostDB) (op : Op) (hInv : DirInv hdb) :
    DirInv (applyOp hdb op) := by
  cases op with
  | ins e =>
    rw [applyOp]
    split
    · rename_i hdb1 hq
      exact DirInv_insert_ok hdb e hdb1 hInv hq
    · exact hInv
  | rm a =>
    rw [applyOp]
    split
    · rename_i hdb1 hq
      exact DirInv_removeBody_ok hdb a hdb1 hInv hq
    · exact hInv

/-- Any operation sequence preserves the invariant. -/
theorem DirInv_runOps (ops : List Op) :
    ∀ hdb, DirInv hdb → DirInv (runOps hdb ops) := by
  induction ops with
  | nil =>
    intro hdb h
    exact h
  | cons op rest ih =>
    intro hdb h
    rw [runOps]
    exact ih _ (DirInv_applyOp hdb op h)

/-- The observable consequences of the invariant: index size counts the
reachable nodes, and the root aggregate totals the active own weights. -/
theorem DirInv_conclusions (hdb : HostDB) (hInv : DirInv hdb) :
    hdb.activeHosts.length = hdb.hostTree.count
    ∧ hdb.hostTree.weight
        = (hdb.activeHosts.map fun p => entryWeight p.2).sum
    ∧ hdb.hostTree.wfWeights = true := by
  obtain ⟨hwf, hent, hkeys, hnd⟩ := hInv
  refine ⟨?_, ?_, hwf⟩
  · rw [HostTree.count_eq_card, hent, Multiset.coe_card, List.length_map]
  · rw [HostTree.weight_eq_sum _ hwf, hent, Multiset.map_coe, Multiset.sum_coe,
      List.map_map]
    rfl

/-- C2.  After any sequence of `Insert`/`Remove` operations on a fresh
directory, the size of `activeHosts` equals the number of nodes reachable
from the tree root, the root aggregate equals the sum of the active entries
own weights, and every node aggregate is its own weight plus its children
aggregates (I2).  (Stated for all operation sequences, in particular those
with unique addresses; every prefix of a sequence is again a sequence, so
this covers the state after each operation.) -/
theorem hostdb_invariants (blockID : BlockID) (ops : List Op) :
    (runOps (newHostDB blockID) ops).activeHosts.length
        = (runOps (newHostDB blockID) ops).hostTree.count
    ∧ (runOps (newHostDB blockID) ops).hostTree.weight
        = ((runOps (newHostDB blockID) ops).activeHosts.map fun p =>
            entryWeight p.2).sum
    ∧ (runOps (newHostDB blockID) ops).hostTree.wfWeights = true :=
  DirInv_conclusions _ (DirInv_runOps ops (newHostDB blockID) (DirInv_newHostDB blockID))

/-- C6.  `Remove(address)` behaves by cases on any directory satisfying the
representation invariant (which every reachable directory does): an active
address succeeds, leaves the index without the address and one entry
shorter, takes the address out of the tree removing exactly one node, and
does not touch `inactiveHosts`; an address only in `inactiveHosts` succeeds
and only deletes that key there; an unknown address fails with the not-found
error and changes nothing. -/
theorem remove_case_analysis (hdb : HostDB) (hInv : DirInv hdb) (a : String) :
    RemoveSpec hdb a := by
  obtain ⟨hwf, hent, hkeys, hnd⟩ := hInv
  rw [RemoveSpec]
  split_ifs with h1 h2
  · have haddr := treeAddrs_eq hdb hent hkeys
    have hndT : (hdb.hostTree.treeEntries.map HostEntry.ipAddress).Nodup := by
      rw [haddr]
      exact Multiset.coe_nodup.mpr hnd
    have hqex : ∃ q ∈ hdb.activeHosts, q.1 = a := by
      have hmem := (keyMem_true_iff _ _).mp h1
      simpa [List.mem_map] using hmem
    obtain ⟨q, hql, hqa⟩ := hqex
    have hqent : q.2 ∈ hdb.hostTree.treeEntries := by
      rw [hent]
      exact Multiset.mem_coe.mpr (List.mem_map_of_mem Prod.snd hql)
    have hc : hdb.hostTree.containsAddr a = true := by
      rw [HostTree.containsAddr_iff]
      exact ⟨q.2, hqent, by rw [hkeys q hql, hqa]⟩
    obtain ⟨e, heent, hea, hrment, hrwf, hown, hwt⟩ :=
      HostTree.removeAddr_spec hdb.hostTree a hwf hndT hc
    refine ⟨{ hdb with activeHosts := eraseKey hdb.activeHosts a,
                       hostTree := hdb.hostTree.removeAddr a },
      by rw [HostDB.removeBody, if_pos h1], ?_, ?_, ?_, ?_, rfl, rfl⟩
    · exact keyMem_eraseKey_self _ _ hnd
    · exact eraseKey_length _ _ h1
    · show (hdb.hostTree.removeAddr a).containsAddr a = false
      cases hq : (hdb.hostTree.removeAddr a).containsAddr a
      · rfl
      · exfalso
        obtain ⟨e2, he2, he2a⟩ := (HostTree.containsAddr_iff _ _).mp hq
        rw [hrment] at he2
        have he2m : e2 ∈ hdb.hostTree.treeEntries := Multiset.mem_of_mem_erase he2
        have he2e : e2 = e := mem_ip_unique hndT he2m heent (by rw [he2a, hea])
        subst he2e
        have hrec : hdb.hostTree.treeEntries
            = e2 ::ₘ hdb.hostTree.treeEntries.erase e2 :=
          (Multiset.cons_erase heent).symm
        have hndT2 := hndT
        rw [hrec, Multiset.map_cons, Multiset.nodup_cons] at hndT2
        exact hndT2.1 (Multiset.mem_map_of_mem _ he2)
    · show (hdb.hostTree.removeAddr a).count + 1 = hdb.hostTree.count
      rw [HostTree.count_eq_card, HostTree.count_eq_card, hrment,
        Multiset.card_erase_of_mem heent, Nat.pred_eq_sub_one]
      have hpos : 0 < Multiset.card hdb.hostTree.treeEntries :=
        Multiset.card_pos_iff_exists_mem.mpr ⟨e, heent⟩
      omega
  · exact ⟨{ hdb with inactiveHosts := eraseKey hdb.inactiveHosts a },
      by rw [HostDB.removeBody, if_neg h1, if_pos h2], rfl,
      eraseKey_length _ _ h2, rfl, rfl, rfl⟩
  · constructor
    · rw [HostDB.removeBody, if_neg h1, if_neg h2]
    · rw [applyOp, HostDB.removeBody, if_neg h1, if_neg h2]

/-- Witness for C6 at a concrete invariant-satisfying one-host directory. -/
theorem remove_case_analysis_witness :
    RemoveSpec
      { recentBlock := 0, hostTree := createNode ⟨"x:1", 5⟩,
        activeHosts := [("x:1", ⟨"x:1", 5⟩)], inactiveHosts := [] } "x:1" :=
  remove_case_analysis
    { recentBlock := 0, hostTree := createNode ⟨"x:1", 5⟩,
      activeHosts := [("x:1", ⟨"x:1", 5⟩)], inactiveHosts := [] }
    (by refine ⟨rfl, rfl, ?_, ?_⟩ <;> decide) "x:1"
